import Mathlib

/-!
Verification of the loghive-sdk log-shipping library (TypeScript sources under
`src/`): a shallow embedding in Lean 4 of the delivery engine
(`src/logger.ts`: flush, per-entry retry/backoff, failure re-queueing), the
backoff and error-normalisation utilities (`src/utils.ts`), and the
sanitization pipeline (`DataSanitizer` in the data-sanitizer module:
rule-based redaction, cycle-guarded object traversal, field anonymization,
bounded audit trail), together with theorems settling the specification
claims.

Modelling conventions:
* JavaScript numbers used by the backoff computation are modelled as `ℚ`;
  `Math.random()` is a parameter `rand` with `0 ≤ rand < 1`.
* Regular-expression application (`String.prototype.replace` with a host
  `RegExp`) is embedded as the field `apply : String → String` of a rule,
  i.e. a rule is carried together with the semantics of its compiled
  pattern/replacement pair.  `JSON.stringify`-based size estimation is
  likewise host-provided and enters the model as the parameters
  `sizeIn`/`sizeOut` (no claim depends on the computed sizes).
* Caller-supplied object graphs (which may be cyclic) are modelled by an
  explicit heap: `JVal.ref a` points to a node of `Heap`.  Recursion depth
  of the sanitizer's traversal is made explicit by a fuel parameter; fuel
  exhaustion models the JavaScript stack overflow (`RangeError: Maximum
  call stack size exceeded`), so "the traversal terminates" is "some fuel
  suffices" and "the recursion is unbounded" is "no fuel suffices".
* Exceptions are modelled with `Except String`.
-/

/-! ## `src/utils.ts` — backoff and error normalisation -/

/-- Model of `getExponentialBackoffDelay` (utils.ts).  `rand` is the value
drawn from `Math.random()`. -/
def getExponentialBackoffDelay (retryCount : ℕ) (initialDelayMs maxDelayMs rand : ℚ) : ℚ :=
  let baseDelay := initialDelayMs * 2 ^ retryCount
  let jitter := rand * baseDelay * (1 / 10)
  min (baseDelay + jitter) maxDelayMs

/-- Canonical error detail produced by `extractErrorDetails` (utils.ts). -/
structure ErrorDetails where
  name : String
  message : String
  stack : Option String
  url : Option String
  lineNumber : Option Int
  columnNumber : Option Int
deriving DecidableEq, Repr

/-- The heterogeneous JavaScript values `extractErrorDetails` can receive. -/
inductive ErrValue where
  | vNull
  | vUndefined
  | vStr (s : String)
  | vNum (n : Int)
  | vBool (b : Bool)
  | vError (name message : String) (stack : Option String)
  | vErrorEvent (message filename : Option String) (lineno colno : Option Int)
  | vObj (name message stack url filename : Option String)
      (lineNumber lineno columnNumber colno : Option Int)
      (ctorName : Option String) (toStr : String)
deriving DecidableEq, Repr

/-- JavaScript `a || b` for a possibly-absent string `a` with string fallback. -/
def jsStrOr (a : Option String) (b : String) : String :=
  match a with
  | some s => if s.isEmpty then b else s
  | none => b

/-- JavaScript `a || b` on two possibly-absent strings. -/
def jsOptOr (a b : Option String) : Option String :=
  match a with
  | some s => if s.isEmpty then b else a
  | none => b

/-- JavaScript `a || b` on two possibly-absent numbers (0 is falsy). -/
def jsIntOr (a b : Option Int) : Option Int :=
  match a with
  | some n => if n = 0 then b else a
  | none => b

/-- The `if (error.stack) result.stack = error.stack` normalisation. -/
def jsStackField (stack : Option String) : Option String :=
  match stack with
  | some s => if s.isEmpty then none else some s
  | none => none

/-- The null/absent sentinel result of `extractErrorDetails`. -/
def unknownDetails : ErrorDetails :=
  ⟨"UnknownError", "Unknown error occurred", none, none, none, none⟩

/-- Model of `extractErrorDetails` (utils.ts).  The source first tests
`if (!error)`, which is taken by every falsy value: `null`, `undefined`,
the empty string, `0` and `false`; the remaining branches follow in source
order (string, `instanceof Error`, `instanceof ErrorEvent`, generic object,
fallback `String(value)`). -/
def extractErrorDetails (error : ErrValue) : ErrorDetails :=
  match error with
  | .vNull => unknownDetails
  | .vUndefined => unknownDetails
  | .vStr s => if s.isEmpty then unknownDetails else ⟨"StringError", s, none, none, none, none⟩
  | .vNum n => if n = 0 then unknownDetails else ⟨"UnknownError", toString n, none, none, none, none⟩
  | .vBool b => if b then ⟨"UnknownError", "true", none, none, none, none⟩ else unknownDetails
  | .vError name message stack =>
      ⟨jsStrOr (some name) "Error", jsStrOr (some message) "Unknown error",
        jsStackField stack, none, none, none⟩
  | .vErrorEvent message filename lineno colno =>
      ⟨"ErrorEvent", jsStrOr message "Unknown error event", none, filename, lineno, colno⟩
  | .vObj name message stack url filename lineNumber lineno columnNumber colno ctorName toStr =>
      ⟨jsStrOr name (jsStrOr ctorName "ObjectError"),
        jsStrOr message (jsStrOr (some toStr) "Unknown object error"),
        stack, jsOptOr url filename, jsIntOr lineNumber lineno, jsIntOr columnNumber colno⟩

/-! ## `anonymizeValue` (data-sanitizer) -/

/-- Model of `DataSanitizer.anonymizeValue`: values of length ≤ 4 become a
fixed sentinel; longer values keep the first and last character and replace
the middle with `max 2 (len - 2)` asterisks. -/
def anonymizeValue (value : String) : String :=
  if value.length ≤ 4 then "[ANONYMIZED]"
  else
    String.mk (value.data.headI ::
      (List.replicate (max 2 (value.length - 2)) '*' ++ [value.data.getLastD value.data.headI]))

/-- Helper: `getLast?` of a non-empty list is its `getLastD` for any default. -/
theorem getLastQ_eq_getLastD {α : Type} (d : α) :
    ∀ (l : List α), l ≠ [] → l.getLast? = some (l.getLastD d) := by
  intro l hl
  cases l with
  | nil => exact absurd rfl hl
  | cons a t =>
      rw [List.getLastD_eq_getLast?]
      cases h : (a :: t).getLast? with
      | none => simp at h
      | some y => rfl

/-- C6: the computed backoff delay equals `min (d * 2^a * (1 + j)) 60000` for
some jitter fraction `0 ≤ j < 1/10`; it never exceeds 60000 ms; and for any
jitter draws the delay is non-decreasing from one attempt to the next. -/
theorem backoff_delay_spec (a : ℕ) (d r : ℚ) (hd : 0 < d) (hr0 : 0 ≤ r) (hr1 : r < 1) :
    (∃ j, 0 ≤ j ∧ j < 1 / 10 ∧
        getExponentialBackoffDelay a d 60000 r = min (d * 2 ^ a * (1 + j)) 60000) ∧
    getExponentialBackoffDelay a d 60000 r ≤ 60000 ∧
    (∀ r', 0 ≤ r' → r' < 1 →
      getExponentialBackoffDelay a d 60000 r ≤ getExponentialBackoffDelay (a + 1) d 60000 r') := by
  refine ⟨⟨r / 10, by positivity, by linarith, ?_⟩, ?_, ?_⟩
  · unfold getExponentialBackoffDelay
    have h : d * 2 ^ a + r * (d * 2 ^ a) * (1 / 10) = d * 2 ^ a * (1 + r / 10) := by ring
    simp only [h]
  · unfold getExponentialBackoffDelay
    exact min_le_right _ _
  · intro r' h0 h1
    unfold getExponentialBackoffDelay
    apply min_le_min _ le_rfl
    have hb : (0 : ℚ) < d * 2 ^ a := by positivity
    have hp : d * 2 ^ (a + 1) = 2 * (d * 2 ^ a) := by ring
    have k1 : r * (d * 2 ^ a) ≤ d * 2 ^ a := by nlinarith
    have k2 : 0 ≤ r' * (d * 2 ^ (a + 1)) := by positivity
    nlinarith

/-- Witness for `backoff_delay_spec` at attempt 0, base delay 1000, jitter 0
and next-attempt jitter 1/2. -/
theorem backoff_delay_spec_witness :
    (0 : ℚ) < 1000 ∧ (0 : ℚ) ≤ 0 ∧ (0 : ℚ) < 1 ∧
      (getExponentialBackoffDelay 0 1000 60000 0 ≤ 60000 ∧
        ((0 : ℚ) ≤ 1 / 2 → (1 / 2 : ℚ) < 1 →
          getExponentialBackoffDelay 0 1000 60000 0 ≤
            getExponentialBackoffDelay 1 1000 60000 (1 / 2))) :=
  ⟨by norm_num, le_refl 0, by norm_num,
    (backoff_delay_spec 0 1000 0 (by norm_num) (le_refl 0) (by norm_num)).2.1,
    fun h0 h1 => (backoff_delay_spec 0 1000 0 (by norm_num) (le_refl 0) (by norm_num)).2.2 _ h0 h1⟩

/-- C7: anonymizing a string of length ≤ 4 yields the fixed sentinel;
anonymizing a string of length ≥ 5 keeps the first and last character,
replaces the interior with `max 2 (len - 2)` asterisks and preserves the
overall length. -/
theorem anonymizeValue_spec (value : String) :
    (value.length ≤ 4 → anonymizeValue value = "[ANONYMIZED]") ∧
    (5 ≤ value.length →
      (anonymizeValue value).length = value.length ∧
      (anonymizeValue value).data.headI = value.data.headI ∧
      (anonymizeValue value).data.getLast? = value.data.getLast? ∧
      (anonymizeValue value).data =
        value.data.headI ::
          (List.replicate (max 2 (value.length - 2)) '*' ++
            [value.data.getLastD value.data.headI])) := by
  constructor
  · intro h
    simp [anonymizeValue, h]
  · intro h5
    have hnot : ¬ value.length ≤ 4 := by omega
    have hlen : value.data.length = value.length := rfl
    have hne : value.data ≠ [] := by
      intro h0
      rw [h0] at hlen
      simp at hlen
      omega
    have hmax : max 2 (value.length - 2) = value.length - 2 := by
      rw [Nat.max_eq_right]
      omega
    refine ⟨?_, ?_, ?_, ?_⟩
    · show (anonymizeValue value).data.length = value.length
      simp [anonymizeValue, hnot, hmax]
      omega
    · simp [anonymizeValue, hnot]
    · rw [getLastQ_eq_getLastD value.data.headI value.data hne]
      simp only [anonymizeValue, hnot, if_false]
      show (String.mk _).data.getLast? = _
      rw [show (value.data.headI ::
          (List.replicate (max 2 (value.length - 2)) '*' ++
            [value.data.getLastD value.data.headI])) =
          ((value.data.headI :: List.replicate (max 2 (value.length - 2)) '*') ++
            [value.data.getLastD value.data.headI]) by simp]
      rw [List.getLast?_concat]
    · simp [anonymizeValue, hnot]

/-- Witness for `anonymizeValue_spec`: `"abcdefgh"` (the spec's own example)
has length ≥ 5, its anonymization preserves length, and it evaluates to
`"a******h"`. -/
theorem anonymizeValue_spec_witness :
    5 ≤ ("abcdefgh" : String).length ∧
      (anonymizeValue "abcdefgh").length = ("abcdefgh" : String).length ∧
      anonymizeValue "abcdefgh" = "a******h" :=
  ⟨by decide, ((anonymizeValue_spec "abcdefgh").2 (by decide)).1, by decide⟩

/-- C9 counterexample: the empty string is falsy in JavaScript, so
`extractErrorDetails("")` takes the `if (!error)` branch and yields the
`UnknownError` sentinel, not a `StringError` with empty message. -/
theorem extractErrorDetails_empty_string_counterexample :
    extractErrorDetails (.vStr "") =
        ⟨"UnknownError", "Unknown error occurred", none, none, none, none⟩ ∧
      (extractErrorDetails (.vStr "")).name ≠ "StringError" ∧
      (extractErrorDetails (.vStr "")).message ≠ "" := by
  refine ⟨rfl, ?_, ?_⟩ <;> decide

/-- C9 amended: for every non-empty string `s`, `extractErrorDetails`
returns name `"StringError"` and message `s`. -/
theorem extractErrorDetails_string (s : String) (h : ¬ s.isEmpty) :
    extractErrorDetails (.vStr s) = ⟨"StringError", s, none, none, none, none⟩ := by
  simp [extractErrorDetails, h]

/-- Witness for `extractErrorDetails_string` at `"boom"`. -/
theorem extractErrorDetails_string_witness :
    ¬ ("boom" : String).isEmpty ∧
      extractErrorDetails (.vStr "boom") = ⟨"StringError", "boom", none, none, none, none⟩ :=
  ⟨by decide, extractErrorDetails_string "boom" (by decide)⟩

/-! ## Sanitization pipeline: values, heap, rules -/

/-- Heap address of a JavaScript object (arrays and plain objects live on
the heap; cycles arise through `ref`). -/
abbrev Addr := Nat

/-- A JavaScript value as seen by the sanitizer's traversal. -/
inductive JVal where
  | null
  | str (s : String)
  | num (n : Int)
  | bool (b : Bool)
  | ref (a : Addr)
deriving DecidableEq, Repr

/-- A heap node: an array of values or a plain object (ordered key/value
pairs, keys unique as in a JavaScript object). -/
inductive HNode where
  | arr (items : List JVal)
  | obj (fields : List (String × JVal))
deriving DecidableEq, Repr

/-- The heap: an association list from addresses to nodes. -/
abbrev Heap := List (Addr × HNode)

/-- Address lookup (first match, as a JavaScript reference is unambiguous). -/
def Heap.find (h : Heap) (a : Addr) : Option HNode :=
  List.lookup a h

/-- A sanitization rule.  `pattern`/`replacement` of the source are a host
`RegExp` plus replacement string; their combined effect (one global
`String.prototype.replace`) is embedded as `apply`. -/
structure SanitizationRule where
  apply : String → String
  description : String
  severity : String
  category : String

/-- Model of `DataSanitizer.sanitizeString`: apply every rule in order and
append the rule's description to `rulesApplied` whenever the substitution
changed the string's length. -/
def sanitizeString (rules : List SanitizationRule) (input : String)
    (rulesApplied : List String) : String × List String :=
  rules.foldl
    (fun acc rule =>
      let beforeLength := acc.1.length
      let sanitized := rule.apply acc.1
      if sanitized.length ≠ beforeLength then (sanitized, acc.2 ++ [rule.description])
      else (sanitized, acc.2))
    (input, rulesApplied)

/-- Output of one sanitizing traversal.  `sanitizeObject` builds fresh
objects (`const sanitized = {}` / `obj.map`), and replaces any object
reached a second time by a sentinel string, so a terminating traversal
returns a tree. -/
inductive SVal where
  | null
  | str (s : String)
  | num (n : Int)
  | bool (b : Bool)
  | arr (items : List SVal)
  | obj (fields : List (String × SVal))
deriving Repr

/-- The message of the JavaScript stack-overflow `RangeError`. -/
def stackOverflowMsg : String := "Maximum call stack size exceeded"

mutual

/-- Model of `DataSanitizer.sanitizeObject` (recursive traversal).  Mirrors
the source exactly: strings are run through `sanitizeString`; arrays are
mapped over *without* consulting or extending the visited set (the
`Array.isArray` branch precedes the `typeof obj === 'object'` branch);
plain objects are looked up in `seen` and replaced by the
`"[Circular Reference]"` sentinel on a revisit, otherwise added to `seen`
and rebuilt field by field.  `seen` and `rulesApplied` are threaded through
the whole traversal, as the source mutates one `WeakSet`/array shared by
every recursive call.  Fuel exhaustion models stack overflow. -/
def sanitizeObjectFuel (h : Heap) (rules : List SanitizationRule) :
    Nat → JVal → List Addr → List String →
      Except String (SVal × List Addr × List String)
  | 0, _, _, _ => .error stackOverflowMsg
  | _ + 1, .null, seen, rs => .ok (.null, seen, rs)
  | _ + 1, .num n, seen, rs => .ok (.num n, seen, rs)
  | _ + 1, .bool b, seen, rs => .ok (.bool b, seen, rs)
  | _ + 1, .str s, seen, rs =>
      let r := sanitizeString rules s rs
      .ok (.str r.1, seen, r.2)
  | fuel + 1, .ref a, seen, rs =>
      match Heap.find h a with
      | none => .ok (.null, seen, rs)
      | some (.arr items) =>
          match sanitizeItemsFuel h rules fuel items seen rs with
          | .error e => .error e
          | .ok (xs, seen', rs') => .ok (.arr xs, seen', rs')
      | some (.obj fields) =>
          if a ∈ seen then .ok (.str "[Circular Reference]", seen, rs)
          else
            match sanitizeFieldsFuel h rules fuel fields (a :: seen) rs with
            | .error e => .error e
            | .ok (fs, seen', rs') => .ok (.obj fs, seen', rs')

/-- Array branch of `sanitizeObject`: `obj.map(item => sanitizeObject(item,
rulesApplied, seen))`. -/
def sanitizeItemsFuel (h : Heap) (rules : List SanitizationRule) :
    Nat → List JVal → List Addr → List String →
      Except String (List SVal × List Addr × List String)
  | 0, _, _, _ => .error stackOverflowMsg
  | _ + 1, [], seen, rs => .ok ([], seen, rs)
  | fuel + 1, v :: vs, seen, rs =>
      match sanitizeObjectFuel h rules fuel v seen rs with
      | .error e => .error e
      | .ok (x, seen', rs') =>
          match sanitizeItemsFuel h rules fuel vs seen' rs' with
          | .error e => .error e
          | .ok (xs, seen'', rs'') => .ok (x :: xs, seen'', rs'')

/-- Object branch of `sanitizeObject`: `for (const [key, value] of
Object.entries(obj)) sanitized[key] = sanitizeObject(value, rulesApplied,
seen)`. -/
def sanitizeFieldsFuel (h : Heap) (rules : List SanitizationRule) :
    Nat → List (String × JVal) → List Addr → List String →
      Except String (List (String × SVal) × List Addr × List String)
  | 0, _, _, _ => .error stackOverflowMsg
  | _ + 1, [], seen, rs => .ok ([], seen, rs)
  | fuel + 1, (k, v) :: fs, seen, rs =>
      match sanitizeObjectFuel h rules fuel v seen rs with
      | .error e => .error e
      | .ok (x, seen', rs') =>
          match sanitizeFieldsFuel h rules fuel fs seen' rs' with
          | .error e => .error e
          | .ok (xs, seen'', rs'') => .ok ((k, x) :: xs, seen'', rs'')

end

/-- The heap consisting of one array that contains itself: `const a = [];
a.push(a)`. -/
def selfArrayHeap : Heap := [(0, .arr [.ref 0])]

/-- On the self-referential array, every fuel bound is exhausted: the
`Array.isArray` branch never consults the visited set, so the recursion is
unbounded. -/
theorem selfArray_no_fuel (rules : List SanitizationRule) :
    ∀ n seen rs,
      sanitizeObjectFuel selfArrayHeap rules n (.ref 0) seen rs = .error stackOverflowMsg ∧
      sanitizeItemsFuel selfArrayHeap rules n [.ref 0] seen rs = .error stackOverflowMsg := by
  intro n
  induction n with
  | zero =>
      intro seen rs
      exact ⟨rfl, rfl⟩
  | succ m ih =>
      intro seen rs
      have step1 : sanitizeObjectFuel selfArrayHeap rules (m + 1) (.ref 0) seen rs =
          match sanitizeItemsFuel selfArrayHeap rules m [.ref 0] seen rs with
          | .error e => .error e
          | .ok (xs, seen', rs') => .ok (.arr xs, seen', rs') := rfl
      have step2 : sanitizeItemsFuel selfArrayHeap rules (m + 1) [.ref 0] seen rs =
          match sanitizeObjectFuel selfArrayHeap rules m (.ref 0) seen rs with
          | .error e => .error e
          | .ok (x, seen', rs') =>
              match sanitizeItemsFuel selfArrayHeap rules m [] seen' rs' with
              | .error e => .error e
              | .ok (xs, seen'', rs'') => .ok (x :: xs, seen'', rs'') := rfl
      constructor
      · rw [step1, (ih seen rs).2]
      · rw [step2, (ih seen rs).1]

/-- Unfolding equation for the `ref` case of the traversal. -/
theorem sanitizeObjectFuel_ref_eq (h : Heap) (rules : List SanitizationRule)
    (n : Nat) (a : Addr) (seen : List Addr) (rs : List String) :
    sanitizeObjectFuel h rules (n + 1) (.ref a) seen rs =
      match Heap.find h a with
      | none => .ok (.null, seen, rs)
      | some (.arr items) =>
          match sanitizeItemsFuel h rules n items seen rs with
          | .error e => .error e
          | .ok (xs, seen', rs') => .ok (.arr xs, seen', rs')
      | some (.obj fields) =>
          if a ∈ seen then .ok (.str "[Circular Reference]", seen, rs)
          else
            match sanitizeFieldsFuel h rules n fields (a :: seen) rs with
            | .error e => .error e
            | .ok (fs, seen', rs') => .ok (.obj fs, seen', rs') := rfl

/-- Unfolding equation for a non-empty array. -/
theorem sanitizeItemsFuel_cons_eq (h : Heap) (rules : List SanitizationRule)
    (n : Nat) (v : JVal) (vs : List JVal) (seen : List Addr) (rs : List String) :
    sanitizeItemsFuel h rules (n + 1) (v :: vs) seen rs =
      match sanitizeObjectFuel h rules n v seen rs with
      | .error e => .error e
      | .ok (x, seen', rs') =>
          match sanitizeItemsFuel h rules n vs seen' rs' with
          | .error e => .error e
          | .ok (xs, seen'', rs'') => .ok (x :: xs, seen'', rs'') := rfl

/-- Unfolding equation for a non-empty field list. -/
theorem sanitizeFieldsFuel_cons_eq (h : Heap) (rules : List SanitizationRule)
    (n : Nat) (k : String) (v : JVal) (fs : List (String × JVal))
    (seen : List Addr) (rs : List String) :
    sanitizeFieldsFuel h rules (n + 1) ((k, v) :: fs) seen rs =
      match sanitizeObjectFuel h rules n v seen rs with
      | .error e => .error e
      | .ok (x, seen', rs') =>
          match sanitizeFieldsFuel h rules n fs seen' rs' with
          | .error e => .error e
          | .ok (xs, seen'', rs'') => .ok ((k, x) :: xs, seen'', rs'') := rfl


/-- Fuel exhaustion at the value level. -/
theorem soZero (h : Heap) (rules : List SanitizationRule) (v : JVal)
    (seen : List Addr) (rs : List String) :
    sanitizeObjectFuel h rules 0 v seen rs = .error stackOverflowMsg := rfl

/-- Fuel exhaustion at the array level. -/
theorem siZero (h : Heap) (rules : List SanitizationRule) (vs : List JVal)
    (seen : List Addr) (rs : List String) :
    sanitizeItemsFuel h rules 0 vs seen rs = .error stackOverflowMsg := rfl

/-- Fuel exhaustion at the field-list level. -/
theorem sfZero (h : Heap) (rules : List SanitizationRule) (fs : List (String × JVal))
    (seen : List Addr) (rs : List String) :
    sanitizeFieldsFuel h rules 0 fs seen rs = .error stackOverflowMsg := rfl

/-- A dangling reference (impossible for a real JavaScript object) is a leaf. -/
theorem soRefNone {h : Heap} {rules : List SanitizationRule} {n : Nat} {a : Addr}
    {seen : List Addr} {rs : List String} (hfind : Heap.find h a = none) :
    sanitizeObjectFuel h rules (n + 1) (.ref a) seen rs = .ok (.null, seen, rs) := by
  rw [sanitizeObjectFuel_ref_eq, hfind]

/-- Reference to an array node: delegate to the item traversal. -/
theorem soRefArr {h : Heap} {rules : List SanitizationRule} {n : Nat} {a : Addr}
    {seen : List Addr} {rs : List String} {items : List JVal}
    (hfind : Heap.find h a = some (.arr items)) :
    sanitizeObjectFuel h rules (n + 1) (.ref a) seen rs =
      match sanitizeItemsFuel h rules n items seen rs with
      | .error e => .error e
      | .ok (xs, s, r) => .ok (.arr xs, s, r) := by
  rw [sanitizeObjectFuel_ref_eq, hfind]

/-- Array reference whose item traversal overflows. -/
theorem soRefArrErr {h : Heap} {rules : List SanitizationRule} {n : Nat} {a : Addr}
    {seen : List Addr} {rs : List String} {items : List JVal} {e : String}
    (hfind : Heap.find h a = some (.arr items))
    (hi : sanitizeItemsFuel h rules n items seen rs = .error e) :
    sanitizeObjectFuel h rules (n + 1) (.ref a) seen rs = .error e := by
  rw [soRefArr hfind, hi]

/-- Array reference whose item traversal succeeds. -/
theorem soRefArrOk {h : Heap} {rules : List SanitizationRule} {n : Nat} {a : Addr}
    {seen : List Addr} {rs : List String} {items : List JVal} {xs : List SVal}
    {s : List Addr} {r : List String}
    (hfind : Heap.find h a = some (.arr items))
    (hi : sanitizeItemsFuel h rules n items seen rs = .ok (xs, s, r)) :
    sanitizeObjectFuel h rules (n + 1) (.ref a) seen rs = .ok (.arr xs, s, r) := by
  rw [soRefArr hfind, hi]

/-- Revisited plain object: the circular-reference sentinel. -/
theorem soRefObjMem {h : Heap} {rules : List SanitizationRule} {n : Nat} {a : Addr}
    {seen : List Addr} {rs : List String} {fields : List (String × JVal)}
    (hfind : Heap.find h a = some (.obj fields)) (hmem : a ∈ seen) :
    sanitizeObjectFuel h rules (n + 1) (.ref a) seen rs =
      .ok (.str "[Circular Reference]", seen, rs) := by
  rw [sanitizeObjectFuel_ref_eq, hfind]
  show (if a ∈ seen then Except.ok (SVal.str "[Circular Reference]", seen, rs)
      else
        match sanitizeFieldsFuel h rules n fields (a :: seen) rs with
        | .error e => .error e
        | .ok (fs, s, r) => .ok (.obj fs, s, r)) =
    Except.ok (SVal.str "[Circular Reference]", seen, rs)
  rw [if_pos hmem]

/-- First visit of a plain object: delegate to the field traversal with the
object added to the visited set. -/
theorem soRefObjNew {h : Heap} {rules : List SanitizationRule} {n : Nat} {a : Addr}
    {seen : List Addr} {rs : List String} {fields : List (String × JVal)}
    (hfind : Heap.find h a = some (.obj fields)) (hmem : a ∉ seen) :
    sanitizeObjectFuel h rules (n + 1) (.ref a) seen rs =
      match sanitizeFieldsFuel h rules n fields (a :: seen) rs with
      | .error e => .error e
      | .ok (fs, s, r) => .ok (.obj fs, s, r) := by
  rw [sanitizeObjectFuel_ref_eq, hfind]
  show (if a ∈ seen then Except.ok (SVal.str "[Circular Reference]", seen, rs)
      else
        match sanitizeFieldsFuel h rules n fields (a :: seen) rs with
        | .error e => .error e
        | .ok (fs, s, r) => .ok (.obj fs, s, r)) =
    match sanitizeFieldsFuel h rules n fields (a :: seen) rs with
    | .error e => .error e
    | .ok (fs, s, r) => .ok (.obj fs, s, r)
  rw [if_neg hmem]

/-- Object reference whose field traversal overflows. -/
theorem soRefObjErr {h : Heap} {rules : List SanitizationRule} {n : Nat} {a : Addr}
    {seen : List Addr} {rs : List String} {fields : List (String × JVal)} {e : String}
    (hfind : Heap.find h a = some (.obj fields)) (hmem : a ∉ seen)
    (hf : sanitizeFieldsFuel h rules n fields (a :: seen) rs = .error e) :
    sanitizeObjectFuel h rules (n + 1) (.ref a) seen rs = .error e := by
  rw [soRefObjNew hfind hmem, hf]

/-- Object reference whose field traversal succeeds. -/
theorem soRefObjOk {h : Heap} {rules : List SanitizationRule} {n : Nat} {a : Addr}
    {seen : List Addr} {rs : List String} {fields : List (String × JVal)}
    {fs : List (String × SVal)} {s : List Addr} {r : List String}
    (hfind : Heap.find h a = some (.obj fields)) (hmem : a ∉ seen)
    (hf : sanitizeFieldsFuel h rules n fields (a :: seen) rs = .ok (fs, s, r)) :
    sanitizeObjectFuel h rules (n + 1) (.ref a) seen rs = .ok (.obj fs, s, r) := by
  rw [soRefObjNew hfind hmem, hf]

/-- First array item overflows. -/
theorem siConsErr {h : Heap} {rules : List SanitizationRule} {n : Nat} {v : JVal}
    {vs : List JVal} {seen : List Addr} {rs : List String} {e : String}
    (ho : sanitizeObjectFuel h rules n v seen rs = .error e) :
    sanitizeItemsFuel h rules (n + 1) (v :: vs) seen rs = .error e := by
  rw [sanitizeItemsFuel_cons_eq, ho]

/-- First array item succeeds: continue with the rest from its state. -/
theorem siConsOk {h : Heap} {rules : List SanitizationRule} {n : Nat} {v : JVal}
    {vs : List JVal} {seen : List Addr} {rs : List String} {x : SVal}
    {s1 : List Addr} {r1 : List String}
    (ho : sanitizeObjectFuel h rules n v seen rs = .ok (x, s1, r1)) :
    sanitizeItemsFuel h rules (n + 1) (v :: vs) seen rs =
      match sanitizeItemsFuel h rules n vs s1 r1 with
      | .error e => .error e
      | .ok (xs, s2, r2) => .ok (x :: xs, s2, r2) := by
  rw [sanitizeItemsFuel_cons_eq, ho]

/-- First array item succeeds, remaining items overflow. -/
theorem siConsOkErr {h : Heap} {rules : List SanitizationRule} {n : Nat} {v : JVal}
    {vs : List JVal} {seen : List Addr} {rs : List String} {x : SVal}
    {s1 : List Addr} {r1 : List String} {e : String}
    (ho : sanitizeObjectFuel h rules n v seen rs = .ok (x, s1, r1))
    (hi : sanitizeItemsFuel h rules n vs s1 r1 = .error e) :
    sanitizeItemsFuel h rules (n + 1) (v :: vs) seen rs = .error e := by
  rw [siConsOk ho, hi]

/-- Both the first array item and the remaining items succeed. -/
theorem siConsOkOk {h : Heap} {rules : List SanitizationRule} {n : Nat} {v : JVal}
    {vs : List JVal} {seen : List Addr} {rs : List String} {x : SVal}
    {s1 : List Addr} {r1 : List String} {xs : List SVal} {s2 : List Addr} {r2 : List String}
    (ho : sanitizeObjectFuel h rules n v seen rs = .ok (x, s1, r1))
    (hi : sanitizeItemsFuel h rules n vs s1 r1 = .ok (xs, s2, r2)) :
    sanitizeItemsFuel h rules (n + 1) (v :: vs) seen rs = .ok (x :: xs, s2, r2) := by
  rw [siConsOk ho, hi]

/-- First field value overflows. -/
theorem sfConsErr {h : Heap} {rules : List SanitizationRule} {n : Nat} {k : String}
    {v : JVal} {fs : List (String × JVal)} {seen : List Addr} {rs : List String} {e : String}
    (ho : sanitizeObjectFuel h rules n v seen rs = .error e) :
    sanitizeFieldsFuel h rules (n + 1) ((k, v) :: fs) seen rs = .error e := by
  rw [sanitizeFieldsFuel_cons_eq, ho]

/-- First field value succeeds: continue with the rest from its state. -/
theorem sfConsOk {h : Heap} {rules : List SanitizationRule} {n : Nat} {k : String}
    {v : JVal} {fs : List (String × JVal)} {seen : List Addr} {rs : List String}
    {x : SVal} {s1 : List Addr} {r1 : List String}
    (ho : sanitizeObjectFuel h rules n v seen rs = .ok (x, s1, r1)) :
    sanitizeFieldsFuel h rules (n + 1) ((k, v) :: fs) seen rs =
      match sanitizeFieldsFuel h rules n fs s1 r1 with
      | .error e => .error e
      | .ok (xs, s2, r2) => .ok ((k, x) :: xs, s2, r2) := by
  rw [sanitizeFieldsFuel_cons_eq, ho]

/-- First field value succeeds, remaining fields overflow. -/
theorem sfConsOkErr {h : Heap} {rules : List SanitizationRule} {n : Nat} {k : String}
    {v : JVal} {fs : List (String × JVal)} {seen : List Addr} {rs : List String}
    {x : SVal} {s1 : List Addr} {r1 : List String} {e : String}
    (ho : sanitizeObjectFuel h rules n v seen rs = .ok (x, s1, r1))
    (hf : sanitizeFieldsFuel h rules n fs s1 r1 = .error e) :
    sanitizeFieldsFuel h rules (n + 1) ((k, v) :: fs) seen rs = .error e := by
  rw [sfConsOk ho, hf]

/-- Both the first field value and the remaining fields succeed. -/
theorem sfConsOkOk {h : Heap} {rules : List SanitizationRule} {n : Nat} {k : String}
    {v : JVal} {fs : List (String × JVal)} {seen : List Addr} {rs : List String}
    {x : SVal} {s1 : List Addr} {r1 : List String} {xs : List (String × SVal)}
    {s2 : List Addr} {r2 : List String}
    (ho : sanitizeObjectFuel h rules n v seen rs = .ok (x, s1, r1))
    (hf : sanitizeFieldsFuel h rules n fs s1 r1 = .ok (xs, s2, r2)) :
    sanitizeFieldsFuel h rules (n + 1) ((k, v) :: fs) seen rs = .ok ((k, x) :: xs, s2, r2) := by
  rw [sfConsOk ho, hf]

/-- More fuel can only turn stack overflow into success, never change a
successful result. -/
theorem sanitizeFuel_mono (h : Heap) (rules : List SanitizationRule) :
    ∀ n,
      (∀ v seen rs out, sanitizeObjectFuel h rules n v seen rs = .ok out →
        sanitizeObjectFuel h rules (n + 1) v seen rs = .ok out) ∧
      (∀ vs seen rs out, sanitizeItemsFuel h rules n vs seen rs = .ok out →
        sanitizeItemsFuel h rules (n + 1) vs seen rs = .ok out) ∧
      (∀ fs seen rs out, sanitizeFieldsFuel h rules n fs seen rs = .ok out →
        sanitizeFieldsFuel h rules (n + 1) fs seen rs = .ok out) := by
  intro n
  induction n with
  | zero =>
      refine ⟨?_, ?_, ?_⟩
      · intro v seen rs out hx; rw [soZero] at hx; simp at hx
      · intro vs seen rs out hx; rw [siZero] at hx; simp at hx
      · intro fs seen rs out hx; rw [sfZero] at hx; simp at hx
  | succ m ih =>
      refine ⟨?_, ?_, ?_⟩
      · intro v seen rs out hx
        cases v with
        | null => exact hx
        | str s => exact hx
        | num k => exact hx
        | bool b => exact hx
        | ref a =>
            cases hfind : Heap.find h a with
            | none =>
                rw [soRefNone hfind] at hx
                rw [soRefNone hfind]
                exact hx
            | some node =>
                cases node with
                | arr items =>
                    cases hi : sanitizeItemsFuel h rules m items seen rs with
                    | error e => rw [soRefArrErr hfind hi] at hx; simp at hx
                    | ok o =>
                        obtain ⟨xs, s1, r1⟩ := o
                        rw [soRefArrOk hfind hi] at hx
                        rw [soRefArrOk hfind (ih.2.1 items seen rs _ hi)]
                        exact hx
                | obj fields =>
                    by_cases hmem : a ∈ seen
                    · rw [soRefObjMem hfind hmem] at hx
                      rw [soRefObjMem hfind hmem]
                      exact hx
                    · cases hf : sanitizeFieldsFuel h rules m fields (a :: seen) rs with
                      | error e => rw [soRefObjErr hfind hmem hf] at hx; simp at hx
                      | ok o =>
                          obtain ⟨fs2, s1, r1⟩ := o
                          rw [soRefObjOk hfind hmem hf] at hx
                          rw [soRefObjOk hfind hmem (ih.2.2 fields (a :: seen) rs _ hf)]
                          exact hx
      · intro vs seen rs out hx
        cases vs with
        | nil => exact hx
        | cons v vt =>
            cases ho : sanitizeObjectFuel h rules m v seen rs with
            | error e => rw [siConsErr ho] at hx; simp at hx
            | ok o =>
                obtain ⟨x, s1, r1⟩ := o
                cases hi : sanitizeItemsFuel h rules m vt s1 r1 with
                | error e => rw [siConsOkErr ho hi] at hx; simp at hx
                | ok o2 =>
                    obtain ⟨xs, s2, r2⟩ := o2
                    rw [siConsOkOk ho hi] at hx
                    rw [siConsOkOk (ih.1 v seen rs _ ho) (ih.2.1 vt s1 r1 _ hi)]
                    exact hx
      · intro fs seen rs out hx
        cases fs with
        | nil => exact hx
        | cons p ft =>
            obtain ⟨k, v⟩ := p
            cases ho : sanitizeObjectFuel h rules m v seen rs with
            | error e => rw [sfConsErr ho] at hx; simp at hx
            | ok o =>
                obtain ⟨x, s1, r1⟩ := o
                cases hf : sanitizeFieldsFuel h rules m ft s1 r1 with
                | error e => rw [sfConsOkErr ho hf] at hx; simp at hx
                | ok o2 =>
                    obtain ⟨xs, s2, r2⟩ := o2
                    rw [sfConsOkOk ho hf] at hx
                    rw [sfConsOkOk (ih.1 v seen rs _ ho) (ih.2.2 ft s1 r1 _ hf)]
                    exact hx

/-- Fuel monotonicity, value level, arbitrary increase. -/
theorem soMonoLe (h : Heap) (rules : List SanitizationRule) {n m : Nat} (hnm : n ≤ m)
    {v : JVal} {seen : List Addr} {rs : List String} {out : SVal × List Addr × List String}
    (hx : sanitizeObjectFuel h rules n v seen rs = .ok out) :
    sanitizeObjectFuel h rules m v seen rs = .ok out := by
  induction m with
  | zero =>
      have : n = 0 := Nat.le_zero.mp hnm
      subst this
      exact hx
  | succ k ihm =>
      by_cases hk : n ≤ k
      · exact (sanitizeFuel_mono h rules k).1 v seen rs out (ihm hk)
      · have : n = k + 1 := by omega
        subst this
        exact hx

/-- Fuel monotonicity, array level, arbitrary increase. -/
theorem siMonoLe (h : Heap) (rules : List SanitizationRule) {n m : Nat} (hnm : n ≤ m)
    {vs : List JVal} {seen : List Addr} {rs : List String}
    {out : List SVal × List Addr × List String}
    (hx : sanitizeItemsFuel h rules n vs seen rs = .ok out) :
    sanitizeItemsFuel h rules m vs seen rs = .ok out := by
  induction m with
  | zero =>
      have : n = 0 := Nat.le_zero.mp hnm
      subst this
      exact hx
  | succ k ihm =>
      by_cases hk : n ≤ k
      · exact (sanitizeFuel_mono h rules k).2.1 vs seen rs out (ihm hk)
      · have : n = k + 1 := by omega
        subst this
        exact hx

/-- Fuel monotonicity, field-list level, arbitrary increase. -/
theorem sfMonoLe (h : Heap) (rules : List SanitizationRule) {n m : Nat} (hnm : n ≤ m)
    {fs : List (String × JVal)} {seen : List Addr} {rs : List String}
    {out : List (String × SVal) × List Addr × List String}
    (hx : sanitizeFieldsFuel h rules n fs seen rs = .ok out) :
    sanitizeFieldsFuel h rules m fs seen rs = .ok out := by
  induction m with
  | zero =>
      have : n = 0 := Nat.le_zero.mp hnm
      subst this
      exact hx
  | succ k ihm =>
      by_cases hk : n ≤ k
      · exact (sanitizeFuel_mono h rules k).2.2 fs seen rs out (ihm hk)
      · have : n = k + 1 := by omega
        subst this
        exact hx

/-- The visited set only grows along a successful traversal. -/
theorem sanitizeFuel_seen_grow (h : Heap) (rules : List SanitizationRule) :
    ∀ n,
      (∀ v seen rs x s r, sanitizeObjectFuel h rules n v seen rs = .ok (x, s, r) → seen ⊆ s) ∧
      (∀ vs seen rs xs s r, sanitizeItemsFuel h rules n vs seen rs = .ok (xs, s, r) → seen ⊆ s) ∧
      (∀ fs seen rs xs s r, sanitizeFieldsFuel h rules n fs seen rs = .ok (xs, s, r) →
        seen ⊆ s) := by
  intro n
  induction n with
  | zero =>
      refine ⟨?_, ?_, ?_⟩
      · intro v seen rs x s r hx; rw [soZero] at hx; simp at hx
      · intro vs seen rs xs s r hx; rw [siZero] at hx; simp at hx
      · intro fs seen rs xs s r hx; rw [sfZero] at hx; simp at hx
  | succ m ih =>
      refine ⟨?_, ?_, ?_⟩
      · intro v seen rs x s r hx
        cases v with
        | null => cases hx; exact List.Subset.refl seen
        | str t => cases hx; exact List.Subset.refl seen
        | num k => cases hx; exact List.Subset.refl seen
        | bool b => cases hx; exact List.Subset.refl seen
        | ref a =>
            cases hfind : Heap.find h a with
            | none =>
                rw [soRefNone hfind] at hx
                cases hx
                exact List.Subset.refl seen
            | some node =>
                cases node with
                | arr items =>
                    cases hi : sanitizeItemsFuel h rules m items seen rs with
                    | error e => rw [soRefArrErr hfind hi] at hx; simp at hx
                    | ok o =>
                        obtain ⟨xs, s1, r1⟩ := o
                        rw [soRefArrOk hfind hi] at hx
                        cases hx
                        exact ih.2.1 items seen rs xs _ _ hi
                | obj fields =>
                    by_cases hmem : a ∈ seen
                    · rw [soRefObjMem hfind hmem] at hx
                      cases hx
                      exact List.Subset.refl seen
                    · cases hf : sanitizeFieldsFuel h rules m fields (a :: seen) rs with
                      | error e => rw [soRefObjErr hfind hmem hf] at hx; simp at hx
                      | ok o =>
                          obtain ⟨fs2, s1, r1⟩ := o
                          rw [soRefObjOk hfind hmem hf] at hx
                          cases hx
                          exact List.Subset.trans (List.subset_cons_self a seen)
                            (ih.2.2 fields (a :: seen) rs fs2 _ _ hf)
      · intro vs seen rs xs s r hx
        cases vs with
        | nil => cases hx; exact List.Subset.refl seen
        | cons v vt =>
            cases ho : sanitizeObjectFuel h rules m v seen rs with
            | error e => rw [siConsErr ho] at hx; simp at hx
            | ok o =>
                obtain ⟨x, s1, r1⟩ := o
                cases hi : sanitizeItemsFuel h rules m vt s1 r1 with
                | error e => rw [siConsOkErr ho hi] at hx; simp at hx
                | ok o2 =>
                    obtain ⟨ys, s2, r2⟩ := o2
                    rw [siConsOkOk ho hi] at hx
                    cases hx
                    exact List.Subset.trans (ih.1 v seen rs x _ _ ho)
                      (ih.2.1 vt _ _ ys _ _ hi)
      · intro fs seen rs xs s r hx
        cases fs with
        | nil => cases hx; exact List.Subset.refl seen
        | cons p ft =>
            obtain ⟨k, v⟩ := p
            cases ho : sanitizeObjectFuel h rules m v seen rs with
            | error e => rw [sfConsErr ho] at hx; simp at hx
            | ok o =>
                obtain ⟨x, s1, r1⟩ := o
                cases hf : sanitizeFieldsFuel h rules m ft s1 r1 with
                | error e => rw [sfConsOkErr ho hf] at hx; simp at hx
                | ok o2 =>
                    obtain ⟨ys, s2, r2⟩ := o2
                    rw [sfConsOkOk ho hf] at hx
                    cases hx
                    exact List.Subset.trans (ih.1 v seen rs x _ _ ho)
                      (ih.2.2 ft _ _ ys _ _ hf)

/-- Whether a heap node is a plain (non-array) object. -/
def isObjNode : HNode → Bool
  | .obj _ => true
  | .arr _ => false

/-- Number of heap entries holding a plain object not yet visited: the
quantity the visited set strictly shrinks on every first visit. -/
def objCount (h : Heap) (seen : List Addr) : Nat :=
  h.countP (fun p => isObjNode p.2 && decide (p.1 ∉ seen))

/-- Counting is monotone under pointwise implication of predicates. -/
theorem countP_le_of_imp {α : Type} {p q : α → Bool} (l : List α)
    (hpq : ∀ a, p a = true → q a = true) : l.countP p ≤ l.countP q := by
  induction l with
  | nil => simp
  | cons a t iht =>
      simp only [List.countP_cons]
      have h1 : (if p a then 1 else 0) ≤ (if q a then 1 else 0) := by
        by_cases hp : p a = true
        · simp [hp, hpq a hp]
        · simp [hp]
      omega

/-- The unvisited-object predicate is antitone in the visited set. -/
theorem objPred_mono {s1 s2 : List Addr} (hsub : s1 ⊆ s2) (p : Addr × HNode) :
    (isObjNode p.2 && decide (p.1 ∉ s2)) = true →
      (isObjNode p.2 && decide (p.1 ∉ s1)) = true := by
  intro hp
  simp only [Bool.and_eq_true, decide_eq_true_eq] at hp ⊢
  exact ⟨hp.1, fun hmemx => hp.2 (hsub hmemx)⟩

/-- Growing the visited set can only shrink the unvisited-object count. -/
theorem objCount_anti (h : Heap) {s1 s2 : List Addr} (hsub : s1 ⊆ s2) :
    objCount h s2 ≤ objCount h s1 :=
  countP_le_of_imp h (objPred_mono hsub)

/-- A found node is a member of the heap list. -/
theorem Heap.find_mem {h : Heap} {a : Addr} {nd : HNode} (hx : Heap.find h a = some nd) :
    (a, nd) ∈ h := by
  induction h with
  | nil => simp [Heap.find, List.lookup] at hx
  | cons e t iht =>
      obtain ⟨k, v⟩ := e
      by_cases hak : a = k
      · subst hak
        have : Heap.find ((a, v) :: t) a = some v := by
          simp [Heap.find, List.lookup]
        rw [this] at hx
        cases hx
        exact List.mem_cons_self _ _
      · have : Heap.find ((k, v) :: t) a = Heap.find t a := by
          have hbeq : (a == k) = false := by simp [hak]
          simp [Heap.find, List.lookup, hbeq]
        rw [this] at hx
        exact List.mem_cons_of_mem _ (iht hx)

/-- Visiting an unvisited plain object strictly decreases the count. -/
theorem objCount_lt (h : Heap) {a : Addr} {nd : HNode} {seen : List Addr}
    (hmem : (a, nd) ∈ h) (hobj : isObjNode nd = true) (hseen : a ∉ seen) :
    objCount h (a :: seen) < objCount h seen := by
  induction h with
  | nil => simp at hmem
  | cons e t iht =>
      simp only [objCount, List.countP_cons] at iht ⊢
      have hsub : seen ⊆ a :: seen := List.subset_cons_self a seen
      rcases List.mem_cons.mp hmem with he | ht
      · have hA : (isObjNode e.2 && decide (e.1 ∉ (a :: seen))) = false := by
          rw [← he]
          simp
        have hS : (isObjNode e.2 && decide (e.1 ∉ seen)) = true := by
          rw [← he]
          simp only [Bool.and_eq_true, decide_eq_true_eq]
          exact ⟨hobj, hseen⟩
        have htail : List.countP (fun p => isObjNode p.2 && decide (p.1 ∉ (a :: seen))) t ≤
            List.countP (fun p => isObjNode p.2 && decide (p.1 ∉ seen)) t :=
          countP_le_of_imp t (objPred_mono hsub)
        rw [hA, hS]
        simp only [Bool.false_eq_true, if_false, if_true]
        omega
      · have hhead : (if (isObjNode e.2 && decide (e.1 ∉ (a :: seen))) = true then 1 else 0) ≤
            (if (isObjNode e.2 && decide (e.1 ∉ seen)) = true then 1 else 0) := by
          by_cases hp : (isObjNode e.2 && decide (e.1 ∉ (a :: seen))) = true
          · rw [if_pos hp, if_pos (objPred_mono hsub e hp)]
          · rw [if_neg hp]
            exact Nat.zero_le _
        have htail := iht ht
        omega

/-- Rank-based depth of a value: positive exactly on references to arrays,
bounding the length of the array-only descent the traversal can make before
hitting a leaf or a plain object. -/
def dRank (h : Heap) (rank : Addr → Nat) : JVal → Nat
  | .ref a =>
      match Heap.find h a with
      | some (.arr _) => rank a + 1
      | _ => 0
  | _ => 0

/-- Under a rank function decreasing along array-to-array references, every
item of an array has strictly smaller depth than the array reference. -/
theorem dRank_item_lt (h : Heap) (rank : Addr → Nat)
    (hrank : ∀ a items b, Heap.find h a = some (.arr items) → JVal.ref b ∈ items →
      ∀ bitems, Heap.find h b = some (.arr bitems) → rank b < rank a)
    {a : Addr} {items : List JVal} (hfind : Heap.find h a = some (.arr items))
    {v : JVal} (hv : v ∈ items) : dRank h rank v < rank a + 1 := by
  cases v with
  | ref b =>
      cases hfb : Heap.find h b with
      | none => simp only [dRank, hfb]; omega
      | some nd =>
          cases nd with
          | arr bitems =>
              simp only [dRank, hfb]
              exact Nat.succ_lt_succ (hrank a items b hfind hv bitems hfb)
          | obj fs => simp only [dRank, hfb]; omega
  | null => simp only [dRank]; omega
  | str s => simp only [dRank]; omega
  | num n => simp only [dRank]; omega
  | bool b => simp only [dRank]; omega

/-- If every item of a list can be traversed from every sufficiently small
visited set, the whole array can. -/
theorem itemsTerminate (h : Heap) (rules : List SanitizationRule) (K : Nat)
    (items : List JVal)
    (helem : ∀ v ∈ items, ∀ seen rs, objCount h seen ≤ K →
      ∃ n x s r, sanitizeObjectFuel h rules n v seen rs = .ok (x, s, r)) :
    ∀ seen rs, objCount h seen ≤ K →
      ∃ n xs s r, sanitizeItemsFuel h rules n items seen rs = .ok (xs, s, r) := by
  induction items with
  | nil => intro seen rs _; exact ⟨1, [], seen, rs, rfl⟩
  | cons v vt iht =>
      intro seen rs hK
      obtain ⟨n1, x, s1, r1, h1⟩ := helem v (List.mem_cons_self v vt) seen rs hK
      have hs1 : seen ⊆ s1 := (sanitizeFuel_seen_grow h rules n1).1 v seen rs x s1 r1 h1
      have hK1 : objCount h s1 ≤ K := le_trans (objCount_anti h hs1) hK
      obtain ⟨n2, xs, s2, r2, h2⟩ :=
        iht (fun w hw => helem w (List.mem_cons_of_mem v hw)) s1 r1 hK1
      exact ⟨max n1 n2 + 1, x :: xs, s2, r2,
        siConsOkOk (soMonoLe h rules (le_max_left n1 n2) h1)
          (siMonoLe h rules (le_max_right n1 n2) h2)⟩

/-- If every field value of a list can be traversed from every sufficiently
small visited set, the whole field list can. -/
theorem fieldsTerminate (h : Heap) (rules : List SanitizationRule) (K : Nat)
    (fields : List (String × JVal))
    (helem : ∀ p ∈ fields, ∀ seen rs, objCount h seen ≤ K →
      ∃ n x s r, sanitizeObjectFuel h rules n p.2 seen rs = .ok (x, s, r)) :
    ∀ seen rs, objCount h seen ≤ K →
      ∃ n xs s r, sanitizeFieldsFuel h rules n fields seen rs = .ok (xs, s, r) := by
  induction fields with
  | nil => intro seen rs _; exact ⟨1, [], seen, rs, rfl⟩
  | cons p ft iht =>
      obtain ⟨k, v⟩ := p
      intro seen rs hK
      obtain ⟨n1, x, s1, r1, h1⟩ := helem (k, v) (List.mem_cons_self _ _) seen rs hK
      have hs1 : seen ⊆ s1 := (sanitizeFuel_seen_grow h rules n1).1 v seen rs x s1 r1 h1
      have hK1 : objCount h s1 ≤ K := le_trans (objCount_anti h hs1) hK
      obtain ⟨n2, xs, s2, r2, h2⟩ :=
        iht (fun w hw => helem w (List.mem_cons_of_mem _ hw)) s1 r1 hK1
      exact ⟨max n1 n2 + 1, (k, x) :: xs, s2, r2,
        sfConsOkOk (soMonoLe h rules (le_max_left n1 n2) h1)
          (sfMonoLe h rules (le_max_right n1 n2) h2)⟩

/-- Termination of the traversal on any heap whose array-to-array references
admit a decreasing rank (equivalently: no cycle made of arrays alone). -/
theorem sanitizeTerminates (h : Heap) (rules : List SanitizationRule) (rank : Addr → Nat)
    (hrank : ∀ a items b, Heap.find h a = some (.arr items) → JVal.ref b ∈ items →
      ∀ bitems, Heap.find h b = some (.arr bitems) → rank b < rank a) :
    ∀ K D v seen rs, objCount h seen ≤ K → dRank h rank v ≤ D →
      ∃ n x s r, sanitizeObjectFuel h rules n v seen rs = .ok (x, s, r) := by
  intro K
  induction K using Nat.strong_induction_on with
  | _ K IHK =>
  intro D
  induction D using Nat.strong_induction_on with
  | _ D IHD =>
  intro v seen rs hK hD
  cases v with
  | null => exact ⟨1, .null, seen, rs, rfl⟩
  | str s => exact ⟨1, .str (sanitizeString rules s rs).1, seen, (sanitizeString rules s rs).2, rfl⟩
  | num k => exact ⟨1, .num k, seen, rs, rfl⟩
  | bool b => exact ⟨1, .bool b, seen, rs, rfl⟩
  | ref a =>
      cases hfind : Heap.find h a with
      | none => exact ⟨1, .null, seen, rs, soRefNone hfind⟩
      | some node =>
          cases node with
          | arr items =>
              have hD1 : rank a + 1 ≤ D := by
                have hda : dRank h rank (.ref a) = rank a + 1 := by simp only [dRank, hfind]
                rw [hda] at hD
                exact hD
              have helem : ∀ w ∈ items, ∀ seen0 rs0, objCount h seen0 ≤ K →
                  ∃ n x s r, sanitizeObjectFuel h rules n w seen0 rs0 = .ok (x, s, r) := by
                intro w hw seen0 rs0 hK0
                exact IHD (dRank h rank w)
                  (lt_of_lt_of_le (dRank_item_lt h rank hrank hfind hw) hD1)
                  w seen0 rs0 hK0 le_rfl
              obtain ⟨n, xs, s, r, hn⟩ := itemsTerminate h rules K items helem seen rs hK
              exact ⟨n + 1, .arr xs, s, r, soRefArrOk hfind hn⟩
          | obj fields =>
              by_cases hmem : a ∈ seen
              · exact ⟨1, .str "[Circular Reference]", seen, rs, soRefObjMem hfind hmem⟩
              · have hlt : objCount h (a :: seen) < objCount h seen :=
                  objCount_lt h (Heap.find_mem hfind) rfl hmem
                have hKlt : objCount h (a :: seen) < K := lt_of_lt_of_le hlt hK
                have helem : ∀ p ∈ fields, ∀ seen0 rs0,
                    objCount h seen0 ≤ objCount h (a :: seen) →
                    ∃ n x s r, sanitizeObjectFuel h rules n p.2 seen0 rs0 = .ok (x, s, r) := by
                  intro p hp seen0 rs0 hK0
                  exact IHK (objCount h (a :: seen)) hKlt (dRank h rank p.2)
                    p.2 seen0 rs0 hK0 le_rfl
                obtain ⟨n, fs2, s, r, hn⟩ := fieldsTerminate h rules (objCount h (a :: seen))
                  fields helem (a :: seen) rs le_rfl
                exact ⟨n + 1, .obj fs2, s, r, soRefObjOk hfind hmem hn⟩

/-- C3 counterexample: for the self-referential array `a = []; a.push(a)`
(deep-cloned intact by `deepClone`, which memoises arrays), the traversal
exhausts every fuel bound: the recursion is unbounded and no circular
sentinel is ever produced, contradicting the claim that sanitization
terminates with a sentinel on every cyclic entry. -/
theorem sanitizeObject_selfArray_counterexample :
    Heap.find selfArrayHeap 0 = some (.arr [.ref 0]) ∧
      ¬ ∃ n out, sanitizeObjectFuel selfArrayHeap [] n (.ref 0) [] [] = .ok out := by
  refine ⟨rfl, ?_⟩
  rintro ⟨n, out, hn⟩
  rw [(selfArray_no_fuel [] n [] []).1] at hn
  simp at hn

/-- C3 amended: the cycle guard of `sanitizeObject` covers plain (non-array)
objects only.  On any heap whose array-to-array references admit a
decreasing rank (i.e. no cycle consisting solely of arrays), the traversal
terminates from every starting value and visited set; and within one
traversal, a plain object reached a second time is replaced by the fixed
`"[Circular Reference]"` sentinel instead of being recursed into. -/
theorem sanitizeObject_cycle_guard (h : Heap) (rules : List SanitizationRule)
    (rank : Addr → Nat)
    (hrank : ∀ a items b, Heap.find h a = some (.arr items) → JVal.ref b ∈ items →
      ∀ bitems, Heap.find h b = some (.arr bitems) → rank b < rank a) :
    (∀ v seen rs, ∃ n x s r, sanitizeObjectFuel h rules n v seen rs = .ok (x, s, r)) ∧
    (∀ a fields seen rs n, Heap.find h a = some (.obj fields) → a ∈ seen →
      sanitizeObjectFuel h rules (n + 1) (.ref a) seen rs =
        .ok (.str "[Circular Reference]", seen, rs)) := by
  constructor
  · intro v seen rs
    exact sanitizeTerminates h rules rank hrank (objCount h seen) (dRank h rank v)
      v seen rs le_rfl le_rfl
  · intro a fields seen rs n hfind hmem
    exact soRefObjMem hfind hmem

/-- The heap consisting of one plain object that references itself:
`const o = {}; o.self = o` — the cycle the spec's sentinel does guard. -/
def objCycleHeap : Heap := [(0, .obj [("self", .ref 0)])]

/-- Witness for `sanitizeObject_cycle_guard` on the self-referential plain
object with the constant rank: its traversal terminates, and the revisit of
address 0 yields the sentinel. -/
theorem sanitizeObject_cycle_guard_witness :
    (∀ a items b, Heap.find objCycleHeap a = some (.arr items) → JVal.ref b ∈ items →
      ∀ bitems, Heap.find objCycleHeap b = some (.arr bitems) →
        (fun _ : Addr => 0) b < (fun _ : Addr => 0) a) ∧
    (∃ n x s r, sanitizeObjectFuel objCycleHeap [] n (.ref 0) [] [] = .ok (x, s, r)) ∧
    sanitizeObjectFuel objCycleHeap [] (0 + 1) (.ref 0) [0] [] =
      .ok (.str "[Circular Reference]", [0], []) := by
  have hrank : ∀ a items b, Heap.find objCycleHeap a = some (.arr items) →
      JVal.ref b ∈ items → ∀ bitems, Heap.find objCycleHeap b = some (.arr bitems) →
      (fun _ : Addr => 0) b < (fun _ : Addr => 0) a := by
    intro a items b hf
    exfalso
    by_cases ha : a = 0
    · subst ha
      rw [show Heap.find objCycleHeap 0 = some (.obj [("self", .ref 0)]) from rfl] at hf
      simp at hf
    · have : Heap.find objCycleHeap a = none := by
        have hbeq : (a == 0) = false := by simp [ha]
        simp [objCycleHeap, Heap.find, List.lookup, hbeq]
      rw [this] at hf
      simp at hf
  refine ⟨hrank, ?_, ?_⟩
  · exact (sanitizeObject_cycle_guard objCycleHeap [] (fun _ => 0) hrank).1 (.ref 0) [] []
  · exact (sanitizeObject_cycle_guard objCycleHeap [] (fun _ => 0) hrank).2
      0 [("self", .ref 0)] [0] [] 0 rfl (by simp)

/-! ## The `DataSanitizer.sanitizeLogEntry` pipeline -/

/-- JavaScript truthiness of a value (`if (sanitizedEntry.data)`). -/
def jsTruthy : JVal → Bool
  | .null => false
  | .str s => !s.isEmpty
  | .num n => n != 0
  | .bool b => b
  | .ref _ => true

/-- JavaScript truthiness of a freshly built tree. -/
def svalTruthy : SVal → Bool
  | .null => false
  | .str s => !s.isEmpty
  | .num n => n != 0
  | .bool b => b
  | .arr _ => true
  | .obj _ => true

/-- Substring containment on character lists (`String.prototype.includes`). -/
def hasSubstring (hay needle : List Char) : Bool :=
  match hay with
  | [] => needle.isEmpty
  | _ :: t => needle.isPrefixOf hay || hasSubstring t needle

/-- `hay.includes(needle)` on strings. -/
def jsIncludes (hay needle : String) : Bool :=
  hasSubstring hay.data needle.data

/-- ASCII case lowering of one character (`String.prototype.toLowerCase`
restricted to the ASCII range the configured field names use). -/
def jsCharToLower (c : Char) : Char :=
  if 'A' ≤ c ∧ c ≤ 'Z' then Char.ofNat (c.toNat + 32) else c

/-- `s.toLowerCase()`. -/
def jsToLower (s : String) : String := String.mk (s.data.map jsCharToLower)

/-- The source's sensitivity test: some configured sensitive-field substring
occurs (case-insensitively) in the key or in its dotted path. -/
def isSensitive (sensitiveFields : List String) (key currentPath : String) : Bool :=
  sensitiveFields.any fun field =>
    jsIncludes (jsToLower key) (jsToLower field) ||
      jsIncludes (jsToLower currentPath) (jsToLower field)

mutual

/-- Model of the inner `anonymizeField` closure of
`anonymizeSensitiveFields`: primitives (including `null`) are returned
unchanged; objects and arrays are walked entry by entry
(`Object.entries` enumerates an array with its indices as keys).  The walk
runs on the same JavaScript call stack as the traversal, so it carries the
same explicit stack bound; exhaustion is the same stack-overflow
exception.  On the trees `sanitizeObject` actually produces the bound
never fires (their depth is below the fuel that built them). -/
def anonymizeField (sf : List String) : Nat → SVal → String → List String →
    Except String (SVal × List String)
  | 0, _, _, _ => .error stackOverflowMsg
  | fuel + 1, .obj fields, path, rs =>
      match anonymizeEntries sf fuel fields path rs with
      | .error e => .error e
      | .ok (fs, rs') => .ok (.obj fs, rs')
  | fuel + 1, .arr items, path, rs =>
      match anonymizeItems sf fuel items 0 path rs with
      | .error e => .error e
      | .ok (xs, rs') => .ok (.arr xs, rs')
  | _ + 1, t, _, rs => .ok (t, rs)

/-- One `[key, value]` entry: a sensitive string value is masked (recording
an `anonymize_key` tag); object/array values are recursed into with the
extended dotted path (the source recurses into them whether or not the key
is sensitive); other values are untouched. -/
def anonymizeEntryValue (sf : List String) : Nat → String → String → SVal →
    List String → Except String (SVal × List String)
  | 0, _, _, _, _ => .error stackOverflowMsg
  | _ + 1, k, currentPath, .str s, rs =>
      if isSensitive sf k currentPath then
        .ok (.str (anonymizeValue s), rs ++ ["anonymize_" ++ k])
      else .ok (.str s, rs)
  | fuel + 1, _, currentPath, .obj fields, rs =>
      match anonymizeEntries sf fuel fields currentPath rs with
      | .error e => .error e
      | .ok (fs, rs') => .ok (.obj fs, rs')
  | fuel + 1, _, currentPath, .arr items, rs =>
      match anonymizeItems sf fuel items 0 currentPath rs with
      | .error e => .error e
      | .ok (xs, rs') => .ok (.arr xs, rs')
  | _ + 1, _, _, v, rs => .ok (v, rs)

/-- Walk the entries of a plain object in order. -/
def anonymizeEntries (sf : List String) : Nat → List (String × SVal) → String →
    List String → Except String (List (String × SVal) × List String)
  | 0, _, _, _ => .error stackOverflowMsg
  | _ + 1, [], _, rs => .ok ([], rs)
  | fuel + 1, (k, v) :: rest, path, rs =>
      let currentPath := if path = "" then k else path ++ "." ++ k
      match anonymizeEntryValue sf fuel k currentPath v rs with
      | .error e => .error e
      | .ok (v', rs1) =>
          match anonymizeEntries sf fuel rest path rs1 with
          | .error e => .error e
          | .ok (rest', rs2) => .ok ((k, v') :: rest', rs2)

/-- Walk the entries of an array (keys are the decimal indices). -/
def anonymizeItems (sf : List String) : Nat → List SVal → Nat → String →
    List String → Except String (List SVal × List String)
  | 0, _, _, _, _ => .error stackOverflowMsg
  | _ + 1, [], _, _, rs => .ok ([], rs)
  | fuel + 1, v :: rest, idx, path, rs =>
      let k := toString idx
      let currentPath := if path = "" then k else path ++ "." ++ k
      match anonymizeEntryValue sf fuel k currentPath v rs with
      | .error e => .error e
      | .ok (v', rs1) =>
          match anonymizeItems sf fuel rest (idx + 1) path rs1 with
          | .error e => .error e
          | .ok (rest', rs2) => .ok (v' :: rest', rs2)

end

/-- Retention policy (carried in the configuration; the retention cache and
cleanup are separate, externally-invoked operations). -/
structure RetentionPolicy where
  maxAge : Nat
  maxSize : Nat
  autoDelete : Bool
  archiveBeforeDelete : Bool
  categories : List String
deriving DecidableEq, Repr

/-- The sanitizer's configuration. -/
structure SanitizationConfig where
  enabled : Bool
  rules : List SanitizationRule
  customRules : List SanitizationRule
  retentionPolicy : RetentionPolicy
  auditEnabled : Bool
  anonymizationEnabled : Bool
  sensitiveFields : List String
  preserveStructure : Bool

/-- Audit operation kinds. -/
inductive AuditOp where
  | sanitize
  | anonymize
  | retain
  | delete
  | archive
deriving DecidableEq, Repr

/-- The free-form `metadata` record of an audit entry, restricted to the
shapes the source actually stores. -/
inductive AuditMeta where
  | success (processingTime rulesCount : Nat)
  | sanitizeError (msg : String)
deriving DecidableEq, Repr

/-- An audit-trail entry. -/
structure AuditEntry where
  timestamp : String
  operation : AuditOp
  dataType : String
  originalSize : Nat
  processedSize : Nat
  rulesApplied : List String
  userId : Option JVal
  sessionId : Option JVal
  metadata : Option AuditMeta
deriving DecidableEq, Repr

/-- Model of `DataSanitizer.recordAuditEntry`: append, then keep only the
last 1000 entries (`this.auditTrail.slice(-1000)`). -/
def recordAuditEntry (trail : List AuditEntry) (entry : AuditEntry) : List AuditEntry :=
  let t := trail ++ [entry]
  if t.length > 1000 then t.drop (t.length - 1000) else t

/-- The log entry as the sanitizer receives it: a message string plus
payloads living on the caller's heap. -/
structure LogEntryM where
  message : String
  data : Option JVal
  context : Option JVal
  metadata : Option JVal
deriving DecidableEq, Repr

/-- A payload of the sanitized entry: either the clone's copy left in place
(the payload was falsy, hence a primitive, at its truthiness check), or the
fresh tree `sanitizeObject` built. -/
inductive OutVal where
  | kept (v : JVal)
  | fresh (t : SVal)
deriving Repr

/-- The entry returned on the success path: the deep clone after its
`message`/`data`/`context`/`metadata` fields were rewritten. -/
structure OutEntry where
  message : String
  data : Option OutVal
  context : Option OutVal
  metadata : Option OutVal
deriving Repr

/-- Truthiness of a sanitized payload (`if (logEntry.data)` before the
anonymization walk). -/
def outTruthy : Option OutVal → Bool
  | none => false
  | some (.kept v) => jsTruthy v
  | some (.fresh t) => svalTruthy t

/-- One `if (sanitizedEntry.x) sanitizedEntry.x = this.sanitizeObject(...)`
step.  A fresh visited set is passed per call (the source's default
parameter); the final visited set is discarded as in the source. -/
def sanitizePayload (h : Heap) (allRules : List SanitizationRule) (fuel : Nat)
    (p : Option JVal) (rs : List String) : Except String (Option OutVal × List String) :=
  match p with
  | none => .ok (none, rs)
  | some v =>
      if jsTruthy v then
        match sanitizeObjectFuel h allRules fuel v [] rs with
        | .error e => .error e
        | .ok (t, _, rs') => .ok (some (.fresh t), rs')
      else .ok (some (.kept v), rs)

/-- One `if (logEntry.x) anonymizeField(logEntry.x)` step of
`anonymizeSensitiveFields`.  A truthy `kept` payload cannot arise (`kept`
is produced only for falsy values, all primitives), and `anonymizeField`
returns primitives unchanged, so the `kept` case is the identity. -/
def anonymizePayload (sf : List String) (fuel : Nat) (p : Option OutVal)
    (rs : List String) : Except String (Option OutVal × List String) :=
  if outTruthy p then
    match p with
    | some (.fresh t) =>
        match anonymizeField sf fuel t "" rs with
        | .error e => .error e
        | .ok (t', rs') => .ok (some (.fresh t'), rs')
    | _ => .ok (p, rs)
  else .ok (p, rs)

/-- Model of `anonymizeSensitiveFields`: walk `data`, `context`, `metadata`
(in that order, never the message), masking sensitive string fields. -/
def anonymizeSensitiveFields (sf : List String) (fuel : Nat) (out : OutEntry)
    (rs : List String) : Except String (OutEntry × List String) :=
  match anonymizePayload sf fuel out.data rs with
  | .error e => .error e
  | .ok (d, rs1) =>
      match anonymizePayload sf fuel out.context rs1 with
      | .error e => .error e
      | .ok (c, rs2) =>
          match anonymizePayload sf fuel out.metadata rs2 with
          | .error e => .error e
          | .ok (m, rs3) => .ok (⟨out.message, d, c, m⟩, rs3)

/-- The `try` block of `sanitizeLogEntry`: deep-clone (structure-preserving,
so traversing the clone is traversing the same heap graph), sanitize the
message (skipped when falsy, i.e. empty), then the three payloads in
source order with one shared `rulesApplied` list, then anonymize if
enabled.  Any stack overflow in the traversals aborts the whole block. -/
def sanitizeAttempt (cfg : SanitizationConfig) (h : Heap) (fuel : Nat)
    (entry : LogEntryM) : Except String (OutEntry × List String) :=
  let allRules := cfg.rules ++ cfg.customRules
  let m := if entry.message.isEmpty then (entry.message, ([] : List String))
           else sanitizeString allRules entry.message []
  match sanitizePayload h allRules fuel entry.data m.2 with
  | .error e => .error e
  | .ok (data', rs2) =>
      match sanitizePayload h allRules fuel entry.context rs2 with
      | .error e => .error e
      | .ok (ctx', rs3) =>
          match sanitizePayload h allRules fuel entry.metadata rs3 with
          | .error e => .error e
          | .ok (md', rs4) =>
              let out0 : OutEntry := ⟨m.1, data', ctx', md'⟩
              if cfg.anonymizationEnabled then
                anonymizeSensitiveFields cfg.sensitiveFields fuel out0 rs4
              else .ok (out0, rs4)

/-- `logEntry.context?.userId`: optional-chained field access on the heap. -/
def jsGetField (h : Heap) (p : Option JVal) (key : String) : Option JVal :=
  match p with
  | some (.ref a) =>
      match Heap.find h a with
      | some (.obj fields) => fields.lookup key
      | _ => none
  | _ => none

/-- Host-provided inputs of one `sanitizeLogEntry` call: the heap the
entry's payloads live on, the stack bound, the clock readings, and the
`JSON.stringify`-based size estimates (`calculateSize`), which are
host-computed and irrelevant to every verified property. -/
structure SanitizeEnv where
  heap : Heap
  fuel : Nat
  now : String
  procTime : Nat
  sizeIn : LogEntryM → Nat
  sizeOut : OutEntry → Nat

/-- Model of `DataSanitizer.sanitizeLogEntry`.  Disabled configuration
returns the argument untouched with no audit.  Otherwise the `try` block
runs; on success the rewritten clone is returned (`.inr`), on an exception
the original entry is returned (`.inl`) — never a thrown error, never a
dropped entry — and, when auditing is on, one audit entry is recorded:
the success entry with the applied-rules list, or the failure entry with
`rulesApplied = ["ERROR"]` and the caught message in `metadata`. -/
def sanitizeLogEntry (cfg : SanitizationConfig) (env : SanitizeEnv)
    (entry : LogEntryM) (trail : List AuditEntry) :
    (LogEntryM ⊕ OutEntry) × List AuditEntry :=
  if !cfg.enabled then (.inl entry, trail)
  else
    let originalSize := env.sizeIn entry
    match sanitizeAttempt cfg env.heap env.fuel entry with
    | .ok (out, rulesApplied) =>
        let trail' :=
          if cfg.auditEnabled then
            recordAuditEntry trail
              ⟨env.now, .sanitize, "log_entry", originalSize, env.sizeOut out, rulesApplied,
                jsGetField env.heap entry.context "userId",
                jsGetField env.heap entry.context "sessionId",
                some (.success env.procTime rulesApplied.length)⟩
          else trail
        (.inr out, trail')
    | .error err =>
        let trail' :=
          if cfg.auditEnabled then
            recordAuditEntry trail
              ⟨env.now, .sanitize, "log_entry", originalSize, originalSize, ["ERROR"],
                jsGetField env.heap entry.context "userId",
                jsGetField env.heap entry.context "sessionId",
                some (.sanitizeError err)⟩
          else trail
        (.inl entry, trail')

/-- C10: with `enabled = false` the sanitizer is the identity: the argument
is returned unchanged, nothing is redacted or anonymized, and no audit
entry is recorded even when auditing is enabled (the early return precedes
the audit step). -/
theorem sanitizeLogEntry_disabled (cfg : SanitizationConfig) (env : SanitizeEnv)
    (entry : LogEntryM) (trail : List AuditEntry) (h : cfg.enabled = false) :
    sanitizeLogEntry cfg env entry trail = (.inl entry, trail) := by
  unfold sanitizeLogEntry
  rw [h]
  rfl

/-- The default retention policy of the source (30 days, 100 MB). -/
def defaultRetentionPolicy : RetentionPolicy :=
  ⟨30 * 24 * 60 * 60 * 1000, 100 * 1024 * 1024, true, true,
    ["pii", "financial", "authentication"]⟩

/-- A configuration with sanitization disabled but auditing enabled. -/
def cfgDisabled : SanitizationConfig :=
  ⟨false, [], [], defaultRetentionPolicy, true, true,
    ["password", "secret", "token", "key", "ssn", "email"], true⟩

/-- An environment with an empty heap and trivial size estimates. -/
def envPlain : SanitizeEnv := ⟨[], 5, "2026-10-11T00:00:00.000Z", 0, fun _ => 0, fun _ => 0⟩

/-- An entry whose message would be redacted were sanitization enabled. -/
def entryEmail : LogEntryM := ⟨"Contact a@b.com", none, none, none⟩

/-- Witness for `sanitizeLogEntry_disabled`: auditing is on, yet the call
is the identity and the trail stays empty. -/
theorem sanitizeLogEntry_disabled_witness :
    cfgDisabled.enabled = false ∧ cfgDisabled.auditEnabled = true ∧
      sanitizeLogEntry cfgDisabled envPlain entryEmail [] = (.inl entryEmail, []) :=
  ⟨rfl, rfl, sanitizeLogEntry_disabled cfgDisabled envPlain entryEmail [] rfl⟩

/-- C4: when the sanitization attempt throws, `sanitizeLogEntry` returns
normally (never propagating) with the original, unsanitized entry — the
entry is not dropped — and, if auditing is enabled, appends exactly one
audit entry whose rules-applied list is the `"ERROR"` marker and whose
metadata carries the caught error's message; with auditing disabled the
trail is untouched. -/
theorem sanitizeLogEntry_failOpen (cfg : SanitizationConfig) (env : SanitizeEnv)
    (entry : LogEntryM) (trail : List AuditEntry) (err : String)
    (hen : cfg.enabled = true)
    (hatt : sanitizeAttempt cfg env.heap env.fuel entry = .error err) :
    (sanitizeLogEntry cfg env entry trail).1 = .inl entry ∧
    (cfg.auditEnabled = true →
      ∃ a, (sanitizeLogEntry cfg env entry trail).2 = recordAuditEntry trail a ∧
        a.operation = .sanitize ∧ a.rulesApplied = ["ERROR"] ∧
        a.metadata = some (.sanitizeError err)) ∧
    (cfg.auditEnabled = false → (sanitizeLogEntry cfg env entry trail).2 = trail) := by
  refine ⟨?_, ?_, ?_⟩
  · simp [sanitizeLogEntry, hen, hatt]
  · intro haud
    refine ⟨⟨env.now, .sanitize, "log_entry", env.sizeIn entry, env.sizeIn entry, ["ERROR"],
      jsGetField env.heap entry.context "userId",
      jsGetField env.heap entry.context "sessionId",
      some (.sanitizeError err)⟩, ?_, rfl, rfl, rfl⟩
    simp [sanitizeLogEntry, hen, hatt, haud]
  · intro haud
    simp [sanitizeLogEntry, hen, hatt, haud]

/-- A fully enabled configuration with no rules and no sensitive fields. -/
def cfgCyc : SanitizationConfig := ⟨true, [], [], defaultRetentionPolicy, true, true, [], true⟩

/-- An environment whose heap carries the self-referential array. -/
def envCyc : SanitizeEnv :=
  ⟨selfArrayHeap, 5, "2026-10-11T00:00:00.000Z", 3, fun _ => 7, fun _ => 7⟩

/-- An entry whose `data` is the self-referential array: its sanitization
attempt overflows the stack. -/
def entryCyc : LogEntryM := ⟨"", some (.ref 0), none, none⟩

/-- Witness for `sanitizeLogEntry_failOpen` on the self-referential array:
the attempt throws the stack-overflow error and the fail-open contract
holds. -/
theorem sanitizeLogEntry_failOpen_witness :
    cfgCyc.enabled = true ∧
      sanitizeAttempt cfgCyc envCyc.heap envCyc.fuel entryCyc = .error stackOverflowMsg ∧
      ((sanitizeLogEntry cfgCyc envCyc entryCyc []).1 = .inl entryCyc ∧
        (cfgCyc.auditEnabled = true →
          ∃ a, (sanitizeLogEntry cfgCyc envCyc entryCyc []).2 = recordAuditEntry [] a ∧
            a.operation = .sanitize ∧ a.rulesApplied = ["ERROR"] ∧
            a.metadata = some (.sanitizeError stackOverflowMsg)) ∧
        (cfgCyc.auditEnabled = false → (sanitizeLogEntry cfgCyc envCyc entryCyc []).2 = [])) :=
  ⟨rfl, rfl, sanitizeLogEntry_failOpen cfgCyc envCyc entryCyc [] stackOverflowMsg rfl rfl⟩

/-- The last `n` elements of a list (`slice(-n)`). -/
def lastN {α : Type} (n : Nat) (l : List α) : List α := l.drop (l.length - n)

/-- A list within the bound is untouched by `lastN 1000`. -/
theorem lastN_of_le {α : Type} (l : List α) (h : l.length ≤ 1000) : lastN 1000 l = l := by
  unfold lastN
  rw [show l.length - 1000 = 0 from by omega, List.drop_zero]

/-- `recordAuditEntry` is exactly: append, then keep the last 1000. -/
theorem recordAuditEntry_eq (trail : List AuditEntry) (e : AuditEntry) :
    recordAuditEntry trail e = lastN 1000 (trail ++ [e]) := by
  unfold recordAuditEntry lastN
  by_cases hl : (trail ++ [e]).length > 1000
  · rw [if_pos hl]
  · rw [if_neg hl]
    rw [show (trail ++ [e]).length - 1000 = 0 from by omega, List.drop_zero]

/-- One append preserves the 1000-entry bound. -/
theorem recordAuditEntry_len (trail : List AuditEntry) (e : AuditEntry) :
    (recordAuditEntry trail e).length ≤ 1000 := by
  unfold recordAuditEntry
  by_cases hl : (trail ++ [e]).length > 1000
  · rw [if_pos hl, List.length_drop]
    omega
  · rw [if_neg hl]
    omega

/-- Taking the last 1000 of an already-truncated prefix is the same as
taking the last 1000 of the original followed by the same suffix. -/
theorem lastN_absorb {α : Type} (l es : List α) (hl : l.length ≤ 1001) :
    lastN 1000 (lastN 1000 l ++ es) = lastN 1000 (l ++ es) := by
  by_cases h : l.length ≤ 1000
  · rw [lastN_of_le l h]
  · have h1001 : l.length = 1001 := by omega
    cases l with
    | nil => simp at h1001
    | cons a t =>
        have ht : t.length = 1000 := by simpa using h1001
        have hL : lastN 1000 (a :: t) = t := by
          unfold lastN
          rw [show (a :: t).length - 1000 = 1 from by simp [ht]]
          rfl
        rw [hL]
        unfold lastN
        rw [show (t ++ es).length - 1000 = es.length from by
          simp only [List.length_append, ht]; omega]
        rw [show ((a :: t) ++ es).length - 1000 = es.length + 1 from by
          simp only [List.length_append, List.length_cons, ht]; omega]
        rw [List.cons_append, List.drop_succ_cons]

/-- C5: starting from any trail within the bound, any sequence of recorded
audit entries (sanitize results, anonymize tags, retention-cleanup records
— every write goes through `recordAuditEntry`) leaves the trail at most
1000 long, and the surviving entries are exactly the most recent 1000 of
everything appended, oldest evicted first. -/
theorem auditTrail_bounded (init es : List AuditEntry) (h : init.length ≤ 1000) :
    (List.foldl recordAuditEntry init es).length ≤ 1000 ∧
    List.foldl recordAuditEntry init es = lastN 1000 (init ++ es) := by
  suffices hmain : ∀ init : List AuditEntry, init.length ≤ 1000 →
      List.foldl recordAuditEntry init es = lastN 1000 (init ++ es) by
    refine ⟨?_, hmain init h⟩
    rw [hmain init h]
    unfold lastN
    rw [List.length_drop]
    omega
  induction es with
  | nil =>
      intro init h0
      simpa using (lastN_of_le init h0).symm
  | cons e et ihe =>
      intro init h0
      rw [List.foldl_cons]
      rw [ihe (recordAuditEntry init e) (recordAuditEntry_len init e)]
      rw [recordAuditEntry_eq init e]
      rw [lastN_absorb (init ++ [e]) et (by simp; omega)]
      rw [List.append_assoc, List.singleton_append]

/-- A sample successful-sanitize audit entry. -/
def auditA : AuditEntry :=
  ⟨"2026-10-11T00:00:01.000Z", .sanitize, "log_entry", 10, 8,
    ["Email address redaction"], none, none, some (.success 1 1)⟩

/-- A sample retention-cleanup audit entry. -/
def auditB : AuditEntry :=
  ⟨"2026-10-11T00:00:02.000Z", .delete, "cached_data", 0, 0,
    ["retention_policy"], none, none, none⟩

/-- Witness for `auditTrail_bounded` on an empty initial trail and two
recorded entries. -/
theorem auditTrail_bounded_witness :
    ([] : List AuditEntry).length ≤ 1000 ∧
      (List.foldl recordAuditEntry [] [auditA, auditB]).length ≤ 1000 ∧
      List.foldl recordAuditEntry ([] : List AuditEntry) [auditA, auditB] =
        lastN 1000 ([] ++ [auditA, auditB]) :=
  ⟨Nat.zero_le 1000,
    (auditTrail_bounded [] [auditA, auditB] (Nat.zero_le 1000)).1,
    (auditTrail_bounded [] [auditA, auditB] (Nat.zero_le 1000)).2⟩

/-- The heap holding the object `o = getPassword()` with
`o.password = "abcdefgh"`. -/
def heapPwd : Heap := [(0, .obj [("password", .str "abcdefgh")])]

/-- A configuration with anonymization on, `password` sensitive, no rules
and no auditing. -/
def cfgAnon : SanitizationConfig :=
  ⟨true, [], [], defaultRetentionPolicy, false, true, ["password"], true⟩

/-- Environment for the anonymization example. -/
def envPwd : SanitizeEnv := ⟨heapPwd, 10, "2026-10-11T00:00:00.000Z", 0, fun _ => 0, fun _ => 0⟩

/-- The entry whose `data` points at the password object. -/
def entryPwd : LogEntryM := ⟨"hi", some (.ref 0), none, none⟩

/-- The entry the sanitizer actually returns for `entryPwd`: a freshly
built tree with the masked password. -/
def outPwd : OutEntry := ⟨"hi", some (.fresh (.obj [("password", .str "a******h")])), none, none⟩

/-- C8 counterexample: the sanitizer does not rewrite the argument's own
fields.  On `entryPwd` it returns a fresh entry (`.inr outPwd`) carrying
the anonymized `a******h`, distinct from the argument (`.inl entryPwd`),
while the argument's object graph still holds the original `"abcdefgh"` —
the source deep-clones precisely "to avoid mutating the original". -/
theorem sanitizeLogEntry_not_in_place_counterexample :
    (sanitizeLogEntry cfgAnon envPwd entryPwd []).1 = .inr outPwd ∧
      (sanitizeLogEntry cfgAnon envPwd entryPwd []).1 ≠ .inl entryPwd ∧
      Heap.find heapPwd 0 = some (.obj [("password", .str "abcdefgh")]) := by
  have h1 : (sanitizeLogEntry cfgAnon envPwd entryPwd []).1 = .inr outPwd := rfl
  refine ⟨h1, ?_, rfl⟩
  rw [h1]
  simp

/-- C8 amended: `sanitizeLogEntry` never writes the argument: it rewrites a
deep clone and returns it.  On the success path the returned entry is the
freshly built sanitized clone (and in particular not the argument object);
the argument itself is returned only on the failure path, unmodified. -/
theorem sanitizeLogEntry_returns_clone (cfg : SanitizationConfig) (env : SanitizeEnv)
    (entry : LogEntryM) (trail : List AuditEntry) (hen : cfg.enabled = true) :
    (∀ out rs, sanitizeAttempt cfg env.heap env.fuel entry = .ok (out, rs) →
      (sanitizeLogEntry cfg env entry trail).1 = .inr out ∧
        (sanitizeLogEntry cfg env entry trail).1 ≠ .inl entry) ∧
    (∀ err, sanitizeAttempt cfg env.heap env.fuel entry = .error err →
      (sanitizeLogEntry cfg env entry trail).1 = .inl entry) := by
  constructor
  · intro out rs hatt
    have h1 : (sanitizeLogEntry cfg env entry trail).1 = .inr out := by
      simp [sanitizeLogEntry, hen, hatt]
    refine ⟨h1, ?_⟩
    rw [h1]
    simp
  · intro err hatt
    simp [sanitizeLogEntry, hen, hatt]

/-- Witness for `sanitizeLogEntry_returns_clone` at the password example:
the attempt succeeds with the anonymized clone and `.inr outPwd` is
returned. -/
theorem sanitizeLogEntry_returns_clone_witness :
    cfgAnon.enabled = true ∧
      sanitizeAttempt cfgAnon envPwd.heap envPwd.fuel entryPwd =
        .ok (outPwd, ["anonymize_password"]) ∧
      ((sanitizeLogEntry cfgAnon envPwd entryPwd []).1 = .inr outPwd ∧
        (sanitizeLogEntry cfgAnon envPwd entryPwd []).1 ≠ .inl entryPwd) :=
  ⟨rfl, rfl,
    (sanitizeLogEntry_returns_clone cfgAnon envPwd entryPwd [] rfl).1
      outPwd ["anonymize_password"] rfl⟩

/-! ## `src/logger.ts` — delivery engine and flush scheduler -/

/-- The outcome of one `axiosInstance.post` attempt: a resolved response
with a status; a rejected promise carrying a response (HTTP error status);
a rejected promise with a request but no response (transport failure); or
a request-setup error. -/
inductive NetResult where
  | response (status : Nat)
  | errResponse (status : Nat)
  | errNoResponse
  | errSetup (msg : String)
deriving DecidableEq, Repr

/-- The retry loop of `_sendSingleLog`, indexed by the remaining iterations
of `for (attempt = 0; attempt <= maxRetries; attempt++)` and the current
attempt number; `outcomes` gives the network's answer per attempt.  Returns
the result together with the number of requests issued.  2xx returns;
other resolved statuses log a warning and retry; 4xx and request-setup
errors throw immediately (non-retryable); 5xx and transport failures
retry; running out of attempts throws the delivery-failed error. -/
def sendSingleLogGo (outcomes : Nat → NetResult) (maxRetries : Nat) :
    Nat → Nat → Except String Unit × Nat
  | 0, _ =>
      (.error ("Monita: Failed to send log after " ++ toString maxRetries ++ " retries."), 0)
  | remaining + 1, attempt =>
      match outcomes attempt with
      | .response s =>
          if 200 ≤ s ∧ s < 300 then (.ok (), 1)
          else
            let r := sendSingleLogGo outcomes maxRetries remaining (attempt + 1)
            (r.1, r.2 + 1)
      | .errResponse s =>
          if 400 ≤ s ∧ s < 500 then
            (.error ("Monita: Non-retryable API error: " ++ toString s), 1)
          else
            let r := sendSingleLogGo outcomes maxRetries remaining (attempt + 1)
            (r.1, r.2 + 1)
      | .errNoResponse =>
          let r := sendSingleLogGo outcomes maxRetries remaining (attempt + 1)
          (r.1, r.2 + 1)
      | .errSetup msg =>
          (.error ("Monita: Non-retryable request error: " ++ msg), 1)

/-- Model of `_sendSingleLog`: attempts numbered 0 through `maxRetries`
inclusive. -/
def sendSingleLog (outcomes : Nat → NetResult) (maxRetries : Nat) :
    Except String Unit × Nat :=
  sendSingleLogGo outcomes maxRetries (maxRetries + 1) 0

/-- Model of `_sendLogs`: nothing to do on an empty list; otherwise one
request fan-out per entry joined by `Promise.all`, which settles every
promise (no cancellation — all requests are counted) and rejects with the
first rejection if any entry's delivery failed terminally. -/
def sendLogs {α : Type} (send : α → Except String Unit × Nat) (logs : List α) :
    Except String Unit × Nat :=
  if logs.isEmpty then (.ok (), 0)
  else
    let requests := (logs.map fun l => (send l).2).sum
    match logs.findSome? (fun l =>
        match (send l).1 with
        | .error m => some m
        | .ok _ => none) with
    | some m => (.error m, requests)
    | none => (.ok (), requests)

/-- The observable state `flush` manipulates: the live buffer and the
flushing flag. -/
structure LoggerState (α : Type) where
  logBuffer : List α
  isFlushing : Bool
deriving DecidableEq, Repr

/-- Model of `Monita.flush`.  Guard: a no-op if a flush is in progress or
the buffer is empty.  Otherwise: snapshot the buffer, reset it, send; the
entries logged while the send was awaited (`during`) have repopulated the
live buffer by the time the send settles; on failure the whole snapshot is
unshifted back in front of them; the flag is cleared in `finally`.  The
second component counts network requests made by this call. -/
def flush {α : Type} (send : α → Except String Unit × Nat) (during : List α)
    (st : LoggerState α) : LoggerState α × Nat :=
  if st.isFlushing || st.logBuffer.isEmpty then (st, 0)
  else
    let logsToSend := st.logBuffer
    let r := sendLogs send logsToSend
    match r.1 with
    | .ok _ => (⟨during, false⟩, r.2)
    | .error _ => (⟨logsToSend ++ during, false⟩, r.2)

/-- C2: a `flush` call made while another flush is in progress, or while
the buffer is empty, is a no-op: zero network requests and an unchanged
state (buffer and flushing flag included). -/
theorem flush_noop {α : Type} (send : α → Except String Unit × Nat) (during : List α)
    (st : LoggerState α) (hguard : st.isFlushing = true ∨ st.logBuffer = []) :
    flush send during st = (st, 0) := by
  rcases hguard with hf | hb
  · simp [flush, hf]
  · simp [flush, hb]

/-- A concrete send function (everything succeeds in one request). -/
def sendConst : Nat → Except String Unit × Nat := fun _ => (.ok (), 1)

/-- Witness for `flush_noop`: a flush during an in-progress flush with a
non-empty buffer changes nothing and issues no request. -/
theorem flush_noop_witness :
    ((⟨[7, 8], true⟩ : LoggerState Nat).isFlushing = true ∨
        (⟨[7, 8], true⟩ : LoggerState Nat).logBuffer = []) ∧
      flush sendConst [9] ⟨[7, 8], true⟩ = (⟨[7, 8], true⟩, 0) :=
  ⟨Or.inl rfl, flush_noop sendConst [9] ⟨[7, 8], true⟩ (Or.inl rfl)⟩

/-- C1: if some entry of the snapshot fails terminally, the whole batch
fails and the entire original snapshot — including entries whose own
requests succeeded — is prepended in its original order to the front of
the live buffer, ahead of the entries logged during the flush; no entry of
the snapshot is dropped, and the flushing flag is cleared. -/
theorem flush_requeues_snapshot {α : Type} (send : α → Except String Unit × Nat)
    (during : List α) (st : LoggerState α)
    (hflag : st.isFlushing = false) (hne : st.logBuffer ≠ [])
    (hfail : ∃ e ∈ st.logBuffer, ∃ m, (send e).1 = .error m) :
    (flush send during st).1 = ⟨st.logBuffer ++ during, false⟩ := by
  have hempty : st.logBuffer.isEmpty = false := by
    cases hb : st.logBuffer with
    | nil => exact absurd hb hne
    | cons x xs => rfl
  obtain ⟨e0, hmem, m0, herr⟩ := hfail
  have hfind : st.logBuffer.findSome? (fun l =>
      match (send l).1 with
      | .error m => some m
      | .ok _ => none) ≠ none := by
    intro hnone
    rw [List.findSome?_eq_none_iff] at hnone
    have hcontra := hnone e0 hmem
    rw [herr] at hcontra
    simp at hcontra
  obtain ⟨m1, hm1⟩ : ∃ m1, st.logBuffer.findSome? (fun l =>
      match (send l).1 with
      | .error m => some m
      | .ok _ => none) = some m1 := by
    cases hx : st.logBuffer.findSome? (fun l =>
        match (send l).1 with
        | .error m => some m
        | .ok _ => none) with
    | none => exact absurd hx hfind
    | some m => exact ⟨m, rfl⟩
  simp [flush, hflag, hempty, sendLogs, hm1]

/-- Per-entry network outcomes: entry 0 receives a 403 on its first
attempt; every other entry succeeds immediately with a 200. -/
def outcomesW (e : Nat) : Nat → NetResult :=
  fun _ => if e = 0 then .errResponse 403 else .response 200

/-- The resulting per-entry send function with `maxRetries = 3`. -/
def sendW : Nat → Except String Unit × Nat := fun e => sendSingleLog (outcomesW e) 3

/-- Witness for `flush_requeues_snapshot`: entry 0 fails terminally with a
403 (zero retries), entry 1 succeeds, and still the whole snapshot
`[0, 1]` is requeued ahead of the entry `9` logged during the flush. -/
theorem flush_requeues_snapshot_witness :
    (⟨[0, 1], false⟩ : LoggerState Nat).isFlushing = false ∧
      (⟨[0, 1], false⟩ : LoggerState Nat).logBuffer ≠ [] ∧
      (∃ e ∈ (⟨[0, 1], false⟩ : LoggerState Nat).logBuffer, ∃ m, (sendW e).1 = .error m) ∧
      (sendW 1).1 = .ok () ∧
      (flush sendW [9] ⟨[0, 1], false⟩).1 = ⟨[0, 1] ++ [9], false⟩ :=
  ⟨rfl, by simp,
    ⟨0, by simp, "Monita: Non-retryable API error: 403", rfl⟩,
    rfl,
    flush_requeues_snapshot sendW [9] ⟨[0, 1], false⟩ rfl (by simp)
      ⟨0, by simp, "Monita: Non-retryable API error: 403", rfl⟩⟩
